import Mathlib

/-!
Verification of the epoching / feature-aggregation pipeline of the
BCI Competition IV 2b notebooks
(00_StarterNotebook_BCIC_IV_2b.ipynb and 01_EEGFeatureExtraction.ipynb).

The development shallowly embeds the notebooks' own glue code:

* notebook 00: `getEpochedDF` (trial segmentation of a continuous
  multi-channel recording into labeled epochs);
* notebook 01: `getIntervals`, the `power_ratios` aggregation loop, the
  `chan_frequency_sems` per-class statistics loop, the `theta_beta_ratios`
  band-ratio loop and the `C3_C4_differences` channel-difference loop.

External scientific library calls (pyeeg.bin_power, numpy std/sqrt) are
out of scope for the pipeline itself; pyeeg's power-ratio computation is
carried as an uninterpreted function parameter, and numpy's std / sqrt
are modelled from their documented semantics where a claim is about the
formula built from them.

Python dictionaries keyed by strings built from (channel, interval) data
are modelled as insertion-ordered association lists with structured keys;
operations that can raise in Python (positional .iloc indexing, lookup of
a missing column key) return Option, with none standing for the raised
exception.
-/

/-- Channel constant from the notebooks: eeg_chans = ["C3", "Cz", "C4"]. -/
def eeg_chans : List String := ["C3", "Cz", "C4"]

/-- Channel constant from the notebooks: eog_chans = ["EOG:ch01", "EOG:ch02", "EOG:ch03"]. -/
def eog_chans : List String := ["EOG:ch01", "EOG:ch02", "EOG:ch03"]

/-- Channel constant from the notebooks: all_chans = eeg_chans + eog_chans. -/
def all_chans : List String := eeg_chans ++ eog_chans

/-- Keys of the notebooks' event_types dict {0:"left", 1:"right"}, in insertion
order; iterating `for event_type in event_types` in Python yields these keys. -/
def event_type_keys : List ℕ := [0, 1]

/-- Value lists of the event_types dict: 0 is "left", 1 is "right". -/
def event_type_name (ev : ℕ) : Option String :=
  if ev = 0 then some "left" else if ev = 1 then some "right" else none

section Dict

variable {κ : Type} {ε : Type} [DecidableEq κ]

/-- Model of looking up key k in a Python dict-of-lists held as an
insertion-ordered association list (keys are unique by construction). -/
def dlookup : List (κ × List ε) → κ → Option (List ε)
  | [], _ => none
  | c :: d, k => if c.1 = k then some c.2 else dlookup d k

/-- Model of the notebooks' recurring idiom
`if key not in d: d[key] = list()` followed by `d[key].append(v)`:
append v to the list stored at k, inserting the key at the end of the
insertion order when it is new. -/
def dappend : List (κ × List ε) → κ → ε → List (κ × List ε)
  | [], k, v => [(k, [v])]
  | c :: d, k, v => if c.1 = k then (c.1, c.2 ++ [v]) :: d else c :: dappend d k v

/-- Insertion-ordered key list of the dict (the DataFrame column order). -/
def dkeys (d : List (κ × List ε)) : List κ := d.map (fun c => c.1)

/-- Fold dappend over a list of key/value pairs, as one pass of a
notebook aggregation loop does over its generated keys. -/
def dappendMany (d : List (κ × List ε)) (kvs : List (κ × ε)) : List (κ × List ε) :=
  kvs.foldl (fun d kv => dappend d kv.1 kv.2) d

theorem dlookup_dappend (d : List (κ × List ε)) (k k' : κ) (v : ε) :
    dlookup (dappend d k v) k' =
      if k' = k then some ((dlookup d k).getD [] ++ [v]) else dlookup d k' := by
  induction d with
  | nil =>
    by_cases h : k' = k
    · simp [dappend, dlookup, h]
    · have h2 : ¬ k = k' := fun he => h he.symm
      simp [dappend, dlookup, h, h2]
  | cons c d ih =>
    by_cases hc : c.1 = k
    · by_cases h : k' = k
      · subst h; subst hc; simp [dappend, dlookup]
      · have h2 : ¬ c.1 = k' := fun he => h (he.symm.trans hc)
        have h3 : ¬ k = k' := fun he => h he.symm
        simp [dappend, dlookup, hc, h, h2, h3]
    · by_cases h : c.1 = k'
      · have h2 : ¬ k' = k := fun he => hc (he ▸ h)
        simp [dappend, dlookup, hc, h, h2]
      · simp [dappend, dlookup, hc, h, ih]

theorem dkeys_dappend (d : List (κ × List ε)) (k : κ) (v : ε) :
    dkeys (dappend d k v) = if k ∈ dkeys d then dkeys d else dkeys d ++ [k] := by
  induction d with
  | nil => simp [dappend, dkeys]
  | cons c d ih =>
    by_cases hc : c.1 = k
    · simp [dappend, dkeys, hc]
    · have hk : ¬ k = c.1 := fun he => hc he.symm
      by_cases hm : k ∈ dkeys d
      · have hm2 : k ∈ dkeys (c :: d) := by simp [dkeys]; right; simpa [dkeys] using hm
        simp only [dappend, if_neg hc]
        have : dkeys (c :: dappend d k v) = c.1 :: dkeys (dappend d k v) := rfl
        rw [this, ih, if_pos hm, if_pos hm2]
        rfl
      · have hm2 : k ∉ dkeys (c :: d) := by
          simp [dkeys] at hm ⊢
          exact ⟨hk, by simpa [dkeys] using hm⟩
        simp only [dappend, if_neg hc]
        have : dkeys (c :: dappend d k v) = c.1 :: dkeys (dappend d k v) := rfl
        rw [this, ih, if_neg hm, if_neg hm2]
        rfl

theorem dlookup_isSome_iff_mem (d : List (κ × List ε)) (k : κ) :
    (dlookup d k).isSome ↔ k ∈ dkeys d := by
  induction d with
  | nil => simp [dlookup, dkeys]
  | cons c d ih =>
    by_cases hc : c.1 = k
    · simp [dlookup, dkeys, hc]
    · have : ¬ k = c.1 := fun he => hc he.symm
      simp [dlookup, dkeys, hc, this, ih]

theorem dlookup_dappendMany_not_mem (d : List (κ × List ε)) (kvs : List (κ × ε)) (k : κ)
    (hk : k ∉ kvs.map (fun kv => kv.1)) :
    dlookup (dappendMany d kvs) k = dlookup d k := by
  induction kvs generalizing d with
  | nil => rfl
  | cons kv kvs ih =>
    simp only [List.map_cons, List.mem_cons, not_or] at hk
    have step : dappendMany d (kv :: kvs) = dappendMany (dappend d kv.1 kv.2) kvs := rfl
    rw [step, ih _ hk.2, dlookup_dappend, if_neg hk.1]

theorem dlookup_dappendMany_mem (d : List (κ × List ε)) (kvs : List (κ × ε)) (k : κ) (v : ε)
    (hnd : (kvs.map (fun kv => kv.1)).Nodup) (hkv : (k, v) ∈ kvs) :
    dlookup (dappendMany d kvs) k = some ((dlookup d k).getD [] ++ [v]) := by
  induction kvs generalizing d with
  | nil => cases hkv
  | cons kv kvs ih =>
    simp only [List.map_cons, List.nodup_cons] at hnd
    have step : dappendMany d (kv :: kvs) = dappendMany (dappend d kv.1 kv.2) kvs := rfl
    rcases List.mem_cons.mp hkv with heq | hmem
    · have hk1 : kv.1 = k := by rw [← heq]
      have hv : kv.2 = v := by rw [← heq]
      have hnot : k ∉ kvs.map (fun kv => kv.1) := hk1 ▸ hnd.1
      rw [step, dlookup_dappendMany_not_mem _ _ _ hnot, dlookup_dappend, if_pos hk1.symm,
        hv, hk1]
    · have hkmem : k ∈ kvs.map (fun kv => kv.1) :=
        List.mem_map.mpr ⟨(k, v), hmem, rfl⟩
      have hne : ¬ k = kv.1 := fun he => hnd.1 (he ▸ hkmem)
      rw [step, ih _ hnd.2 hmem, dlookup_dappend, if_neg hne]

theorem dkeys_dappendMany_subset (d : List (κ × List ε)) (kvs : List (κ × ε))
    (hsub : ∀ k ∈ kvs.map (fun kv => kv.1), k ∈ dkeys d) :
    dkeys (dappendMany d kvs) = dkeys d := by
  induction kvs generalizing d with
  | nil => rfl
  | cons kv kvs ih =>
    simp only [List.map_cons, List.mem_cons] at hsub
    have step : dappendMany d (kv :: kvs) = dappendMany (dappend d kv.1 kv.2) kvs := rfl
    have h1 : dkeys (dappend d kv.1 kv.2) = dkeys d := by
      rw [dkeys_dappend, if_pos (hsub kv.1 (Or.inl rfl))]
    rw [step, ih _ (fun k hk => h1 ▸ hsub k (Or.inr hk)), h1]

theorem dkeys_dappendMany_disjoint (d : List (κ × List ε)) (kvs : List (κ × ε))
    (hnd : (kvs.map (fun kv => kv.1)).Nodup)
    (hdisj : ∀ k ∈ kvs.map (fun kv => kv.1), k ∉ dkeys d) :
    dkeys (dappendMany d kvs) = dkeys d ++ kvs.map (fun kv => kv.1) := by
  induction kvs generalizing d with
  | nil => simp [dappendMany]
  | cons kv kvs ih =>
    simp only [List.map_cons, List.nodup_cons] at hnd
    simp only [List.map_cons, List.mem_cons] at hdisj
    have step : dappendMany d (kv :: kvs) = dappendMany (dappend d kv.1 kv.2) kvs := rfl
    have h1 : dkeys (dappend d kv.1 kv.2) = dkeys d ++ [kv.1] := by
      rw [dkeys_dappend, if_neg (hdisj kv.1 (Or.inl rfl))]
    have hdisj2 : ∀ k ∈ kvs.map (fun kv => kv.1), k ∉ dkeys (dappend d kv.1 kv.2) := by
      intro k hk
      rw [h1]
      intro hmem
      rcases List.mem_append.mp hmem with h | h
      · exact hdisj k (Or.inr hk) h
      · exact hnd.1 ((List.mem_singleton.mp h) ▸ hk)
    rw [step, ih _ hnd.2 hdisj2, h1, List.append_assoc]
    rfl

end Dict

section BuildTable

variable {ρ κ ε : Type} [DecidableEq κ]

/-- Shared shape of the aggregation loops of notebook 01
(theta_beta_ratios, C3_C4_differences, chan_frequency_sems):
for every row r of an outer collection and every generated key k,
look a value up (which raises KeyError, i.e. none, when a referenced
column is missing) and append it to the dict at k. -/
def buildTable (rows : List ρ) (ks : List κ) (f : ρ → κ → Option ε) :
    Option (List (κ × List ε)) :=
  rows.foldlM (fun d r =>
    ks.foldlM (fun d k => (f r k).map (fun v => dappend d k v)) d) []

theorem innerFold_eq [Inhabited ε] (f : ρ → κ → Option ε) (r : ρ) (ks : List κ)
    (hf : ∀ k ∈ ks, (f r k).isSome) (d : List (κ × List ε)) :
    ks.foldlM (fun d k => (f r k).map (fun v => dappend d k v)) d
      = some (dappendMany d (ks.map (fun k => (k, (f r k).iget)))) := by
  induction ks generalizing d with
  | nil => rfl
  | cons k ks ih =>
    obtain ⟨v, hv⟩ := Option.isSome_iff_exists.mp (hf k (List.mem_cons_self k ks))
    rw [List.foldlM_cons, hv]
    have : (some v).map (fun v => dappend d k v) = some (dappend d k v) := rfl
    rw [this]
    have hbind : (some (dappend d k v) >>= fun d =>
        ks.foldlM (fun d k => (f r k).map (fun v => dappend d k v)) d)
        = ks.foldlM (fun d k => (f r k).map (fun v => dappend d k v)) (dappend d k v) := rfl
    rw [hbind, ih (fun k hk => hf k (List.mem_cons_of_mem _ hk))]
    have hv2 : (f r k).iget = v := by rw [hv]
    simp only [List.map_cons, hv2]
    rfl

theorem innerFold_some_forall (f : ρ → κ → Option ε) (r : ρ) (ks : List κ)
    (d d2 : List (κ × List ε))
    (h : ks.foldlM (fun d k => (f r k).map (fun v => dappend d k v)) d = some d2) :
    ∀ k ∈ ks, (f r k).isSome := by
  induction ks generalizing d with
  | nil => intro k hk; cases hk
  | cons k0 ks ih =>
    rw [List.foldlM_cons] at h
    intro k hk
    cases hfk : f r k0 with
    | none => rw [hfk] at h; cases h
    | some v =>
      rw [hfk] at h
      rcases List.mem_cons.mp hk with heq | hmem
      · rw [heq, hfk]; rfl
      · exact ih _ h k hmem

theorem buildTable_some_forall (rows : List ρ) (ks : List κ) (f : ρ → κ → Option ε)
    (d : List (κ × List ε)) (h : buildTable rows ks f = some d) :
    ∀ r ∈ rows, ∀ k ∈ ks, (f r k).isSome := by
  unfold buildTable at h
  suffices H : ∀ (rows : List ρ) (d0 d : List (κ × List ε)),
      rows.foldlM (fun d r =>
        ks.foldlM (fun d k => (f r k).map (fun v => dappend d k v)) d) d0 = some d →
      ∀ r ∈ rows, ∀ k ∈ ks, (f r k).isSome by
    exact H rows [] d h
  intro rows
  induction rows with
  | nil => intro d0 d _ r hr; cases hr
  | cons r0 rows ih =>
    intro d0 d h r hr
    rw [List.foldlM_cons] at h
    cases hstep : (ks.foldlM (fun d k => (f r0 k).map (fun v => dappend d k v)) d0) with
    | none => rw [hstep] at h; cases h
    | some d1 =>
      rw [hstep] at h
      rcases List.mem_cons.mp hr with heq | hmem
      · exact heq ▸ innerFold_some_forall f r0 ks d0 d1 hstep
      · exact ih d1 d h r hmem

theorem outerFold_inv [Inhabited ε] (rows : List ρ) (ks : List κ) (f : ρ → κ → Option ε)
    (hnd : ks.Nodup) (hf : ∀ r ∈ rows, ∀ k ∈ ks, (f r k).isSome)
    (d0 : List (κ × List ε)) (hkeys : ∀ k ∈ ks, k ∈ dkeys d0) :
    ∃ d, rows.foldlM (fun d r =>
        ks.foldlM (fun d k => (f r k).map (fun v => dappend d k v)) d) d0 = some d ∧
      dkeys d = dkeys d0 ∧
      ∀ k ∈ ks, dlookup d k =
        some ((dlookup d0 k).getD [] ++ rows.map (fun r => (f r k).iget)) := by
  induction rows generalizing d0 with
  | nil =>
    refine ⟨d0, rfl, rfl, ?_⟩
    intro k hk
    obtain ⟨l, hl⟩ := Option.isSome_iff_exists.mp
      ((dlookup_isSome_iff_mem d0 k).mpr (hkeys k hk))
    simp [hl]
  | cons r rows ih =>
    have hmapkeys : (ks.map (fun k => (k, (f r k).iget))).map (fun kv => kv.1) = ks := by
      rw [List.map_map]; exact List.map_id ks
    have hstep := innerFold_eq f r ks (hf r (List.mem_cons_self r rows)) d0
    set d1 := dappendMany d0 (ks.map (fun k => (k, (f r k).iget))) with hd1
    have hk1 : dkeys d1 = dkeys d0 :=
      dkeys_dappendMany_subset _ _ (fun k hk => hkeys k (hmapkeys ▸ hk))
    have hf2 : ∀ r2 ∈ rows, ∀ k ∈ ks, (f r2 k).isSome :=
      fun r2 hr2 k hk => hf r2 (List.mem_cons_of_mem _ hr2) k hk
    obtain ⟨d, hfold, hdk, hlk⟩ := ih hf2 d1 (fun k hk => hk1 ▸ hkeys k hk)
    refine ⟨d, ?_, hk1 ▸ hdk, ?_⟩
    · rw [List.foldlM_cons, hstep]
      exact hfold
    · intro k hk
      have hv : dlookup d1 k = some ((dlookup d0 k).getD [] ++ [(f r k).iget]) :=
        dlookup_dappendMany_mem d0 _ k _ (by rw [hmapkeys]; exact hnd)
          (List.mem_map.mpr ⟨k, hk, rfl⟩)
      rw [hlk k hk, hv]
      simp [List.append_assoc]

theorem buildTable_spec [Inhabited ε] (rows : List ρ) (ks : List κ) (f : ρ → κ → Option ε)
    (hnd : ks.Nodup) (hf : ∀ r ∈ rows, ∀ k ∈ ks, (f r k).isSome) :
    ∃ d, buildTable rows ks f = some d ∧
      dkeys d = (if rows.isEmpty then ([] : List κ) else ks) ∧
      ∀ k ∈ ks, rows ≠ [] →
        dlookup d k = some (rows.map (fun r => (f r k).iget)) := by
  cases rows with
  | nil => exact ⟨[], rfl, rfl, fun k _ h => absurd rfl h⟩
  | cons r rows =>
    have hmapkeys : (ks.map (fun k => (k, (f r k).iget))).map (fun kv => kv.1) = ks := by
      rw [List.map_map]; exact List.map_id ks
    have hstep := innerFold_eq f r ks (hf r (List.mem_cons_self r rows)) []
    set d1 := dappendMany [] (ks.map (fun k => (k, (f r k).iget))) with hd1
    have hk1 : dkeys d1 = ks := by
      have := dkeys_dappendMany_disjoint ([] : List (κ × List ε))
        (ks.map (fun k => (k, (f r k).iget))) (by rw [hmapkeys]; exact hnd)
        (fun k _ hk => by cases hk)
      rw [hd1, this, hmapkeys]
      rfl
    have hf2 : ∀ r2 ∈ rows, ∀ k ∈ ks, (f r2 k).isSome :=
      fun r2 hr2 k hk => hf r2 (List.mem_cons_of_mem _ hr2) k hk
    obtain ⟨d, hfold, hdk, hlk⟩ := outerFold_inv rows ks f hnd hf2 d1
      (fun k hk => hk1 ▸ hk)
    refine ⟨d, ?_, ?_, ?_⟩
    · unfold buildTable
      rw [List.foldlM_cons, hstep]
      exact hfold
    · rw [hdk, hk1]; rfl
    · intro k hk _
      have hv : dlookup d1 k = some [(f r k).iget] := by
        rw [hd1, dlookup_dappendMany_mem ([] : List (κ × List ε)) _ k _
          (by rw [hmapkeys]; exact hnd) (List.mem_map.mpr ⟨k, hk, rfl⟩)]
        rfl
      rw [hlk k hk, hv]
      rfl

end BuildTable

/-! ## Epoch extraction (notebook 00)

Embedding of getEpochedDF / getDF. The continuous recording eeg_df is a
list of rows, each carrying the millisecond timestamp of the time column,
the 0/1 EventStart flag, and the sample value of every channel column.
The event_df input is the list of EventType labels (integers 0/1 in the
dataset). Positional indexing start_df.iloc[i] raises IndexError in
pandas when i is out of range; the embedding returns none for that. -/

/-- Row of the continuous recording dataframe eeg_df: time (ms),
EventStart flag, and the per-channel sample values. -/
structure EEGRow where
  time : ℕ
  eventStart : ℕ
  values : String → ℚ

/-- Embedding of start_df = eeg_df[eeg_df[EventStart] == 1]. -/
def startRows (eeg : List EEGRow) : List EEGRow :=
  eeg.filter (fun r => r.eventStart = 1)

/-- Embedding of sub_df = eeg_df[(eeg_df[time] > start_time) & (eeg_df[time] <= end_time)]. -/
def timeSlice (eeg : List EEGRow) (s e : ℕ) : List EEGRow :=
  eeg.filter (fun r => decide (s < r.time) && decide (r.time ≤ e))

/-- One row of the epoched dataframe produced by getDF: the trial label
(EventType value), the start time, and per channel (in all_chans order)
the sliced sample sequence. -/
structure Epoch where
  event_type : ℕ
  start_time : ℕ
  data : List (String × List ℚ)
deriving DecidableEq

/-- The epoch assembled for one event inside the getEpochedDF loop:
start_time = start_df.iloc[i]["time"], end_time = start_time + trial
duration, and per channel the slice sub_df[ch].values. -/
def mkEpoch (eeg : List EEGRow) (D : ℕ) (ev : ℕ) (srow : EEGRow) : Epoch :=
  { event_type := ev
    start_time := srow.time
    data := all_chans.map (fun ch =>
      (ch, (timeSlice eeg srow.time (srow.time + D)).map (fun r => r.values ch))) }

/-- The loop of getEpochedDF: iterate over event_df["EventType"].values
with running index i, reading start_df.iloc[i]; none models the
IndexError raised when i is out of range of start_df. -/
def epochsAux (eeg : List EEGRow) (sdf : List EEGRow) (D : ℕ) :
    List ℕ → ℕ → Option (List Epoch)
  | [], _ => some []
  | ev :: evs, i =>
    match sdf.get? i with
    | none => none
    | some srow => (epochsAux eeg sdf D evs (i + 1)).map (fun eps => mkEpoch eeg D ev srow :: eps)

/-- Embedding of getEpochedDF(eeg_df, event_df, trial_duration_ms):
one epoch per event, slicing the window (start, start + duration] out of
every channel. -/
def getEpochedDF (eeg : List EEGRow) (events : List ℕ) (D : ℕ) : Option (List Epoch) :=
  epochsAux eeg (startRows eeg) D events 0

theorem epochsAux_some_spec (eeg sdf : List EEGRow) (D : ℕ) :
    ∀ (evs : List ℕ) (i0 : ℕ) (eps : List Epoch),
      epochsAux eeg sdf D evs i0 = some eps →
      eps.length = evs.length ∧
      eps.map (fun e => e.event_type) = evs ∧
      ∀ j, j < evs.length → ∃ srow, sdf.get? (i0 + j) = some srow ∧
        eps.get? j = some (mkEpoch eeg D (evs.getD j 0) srow) := by
  intro evs
  induction evs with
  | nil =>
    intro i0 eps h
    cases h
    exact ⟨rfl, rfl, fun j hj => absurd hj (by simp)⟩
  | cons ev evs ih =>
    intro i0 eps h
    unfold epochsAux at h
    cases hs : sdf.get? i0 with
    | none => rw [hs] at h; cases h
    | some srow =>
      rw [hs] at h
      cases hrest : epochsAux eeg sdf D evs (i0 + 1) with
      | none => rw [hrest] at h; cases h
      | some eps2 =>
        rw [hrest] at h
        have heps : eps = mkEpoch eeg D ev srow :: eps2 := by
          cases h; rfl
        obtain ⟨hlen, hmap, hget⟩ := ih (i0 + 1) eps2 hrest
        subst heps
        refine ⟨by simp [hlen], by simp [hmap, mkEpoch], ?_⟩
        intro j hj
        cases j with
        | zero => exact ⟨srow, by simpa using hs, by simp⟩
        | succ j =>
          have hj2 : j < evs.length := Nat.lt_of_succ_lt_succ hj
          obtain ⟨srow2, hs2, he2⟩ := hget j hj2
          refine ⟨srow2, ?_, ?_⟩
          · have : i0 + (j + 1) = i0 + 1 + j := by omega
            rw [this]
            exact hs2
          · simpa using he2

theorem epochsAux_isSome (eeg sdf : List EEGRow) (D : ℕ) :
    ∀ (evs : List ℕ) (i0 : ℕ), i0 + evs.length ≤ sdf.length →
      (epochsAux eeg sdf D evs i0).isSome := by
  intro evs
  induction evs with
  | nil => intro i0 _; rfl
  | cons ev evs ih =>
    intro i0 hlen
    have hi : i0 < sdf.length := by simp at hlen; omega
    obtain ⟨srow, hs⟩ : ∃ srow, sdf.get? i0 = some srow := by
      rw [List.get?_eq_getElem?]
      exact ⟨sdf[i0], List.getElem?_eq_getElem hi⟩
    have hrest := ih (i0 + 1) (by simp at hlen ⊢; omega)
    obtain ⟨eps2, heps2⟩ := Option.isSome_iff_exists.mp hrest
    unfold epochsAux
    rw [hs, heps2]
    rfl

/-! ## Regularly sampled recordings

The BCIC IV 2b recording is sampled at 250 Hz, i.e. its time column is
the arithmetic grid t0, t0 + p, t0 + 2p, ... with p = 1000/fs = 4 ms per
sample. The claims about slice lengths are about such grid recordings. -/

/-- A recording whose time column is the arithmetic grid with start t0,
period p (ms per sample) and N samples; flag gives the EventStart column
and vals the channel columns. -/
def gridEEG (t0 p N : ℕ) (flag : ℕ → ℕ) (vals : ℕ → String → ℚ) : List EEGRow :=
  (List.range N).map (fun k => ⟨t0 + p * k, flag k, vals k⟩)

theorem nat_mul_lt_left_iff {p m k : ℕ} (hp : 0 < p) : p * m < p * k ↔ m < k := by
  constructor
  · intro h
    by_contra hc
    push_neg at hc
    exact absurd (Nat.mul_le_mul_left p hc) (Nat.not_le_of_lt h)
  · intro h
    have h1 : p * (m + 1) ≤ p * k := Nat.mul_le_mul_left p h
    have h2 : p * m < p * (m + 1) := by
      rw [Nat.mul_succ]
      omega
    omega

theorem nat_mul_le_left_iff {p m k : ℕ} (hp : 0 < p) : p * m ≤ p * k ↔ m ≤ k := by
  constructor
  · intro h
    by_contra hc
    push_neg at hc
    have h1 : p * (k + 1) ≤ p * m := Nat.mul_le_mul_left p hc
    have h2 : p * k < p * (k + 1) := by rw [Nat.mul_succ]; omega
    omega
  · intro h
    exact Nat.mul_le_mul_left p h

/-- Counting lemma: the number of indices k < N with m < k and
k ≤ m + c is min (m + c) (N - 1) - m. -/
theorem filter_range_count (N m c : ℕ) :
    ((List.range N).filter (fun k => decide (m < k) && decide (k ≤ m + c))).length
      = min (m + c) (N - 1) - m := by
  induction N with
  | zero => simp
  | succ n ih =>
    rw [List.range_succ, List.filter_append, List.length_append, ih]
    have hsing : (List.filter (fun k => decide (m < k) && decide (k ≤ m + c)) [n]).length
        = if m < n ∧ n ≤ m + c then 1 else 0 := by
      by_cases h1 : m < n <;> by_cases h2 : n ≤ m + c <;> simp [h1, h2]
    rw [hsing]
    by_cases h1 : m < n <;> by_cases h2 : n ≤ m + c <;> simp [h1, h2] <;> omega

/-- Length of the window slice of a grid recording when the window starts
on the grid: the slice (t0 + pm, t0 + pm + pc] holds min (m+c) (N-1) - m
samples. -/
theorem timeSlice_grid_length (t0 p N : ℕ) (flag : ℕ → ℕ) (vals : ℕ → String → ℚ)
    (m c : ℕ) (hp : 0 < p) :
    (timeSlice (gridEEG t0 p N flag vals) (t0 + p * m) (t0 + p * m + p * c)).length
      = min (m + c) (N - 1) - m := by
  unfold timeSlice gridEEG
  rw [List.filter_map, List.length_map]
  have hcongr : ∀ k ∈ List.range N,
      ((fun r : EEGRow => decide (t0 + p * m < r.time) && decide (r.time ≤ t0 + p * m + p * c)) ∘
        (fun k => (⟨t0 + p * k, flag k, vals k⟩ : EEGRow))) k
      = (fun k => decide (m < k) && decide (k ≤ m + c)) k := by
    intro k _
    simp only [Function.comp]
    congr 1
    · rw [decide_eq_decide]
      rw [Nat.add_lt_add_iff_left]
      exact nat_mul_lt_left_iff hp
    · rw [decide_eq_decide]
      rw [Nat.add_assoc, Nat.add_le_add_iff_left, ← Nat.mul_add]
      exact nat_mul_le_left_iff hp
  rw [List.filter_congr hcongr, filter_range_count]

/-- Every row of a grid recording has time t0 + p * k for some k < N. -/
theorem mem_gridEEG_time (t0 p N : ℕ) (flag : ℕ → ℕ) (vals : ℕ → String → ℚ)
    (r : EEGRow) (hr : r ∈ gridEEG t0 p N flag vals) :
    ∃ k, k < N ∧ r.time = t0 + p * k := by
  unfold gridEEG at hr
  obtain ⟨k, hk, hreq⟩ := List.mem_map.mp hr
  exact ⟨k, List.mem_range.mp hk, by rw [← hreq]⟩

/-- Start rows are rows of the recording. -/
theorem startRows_subset (eeg : List EEGRow) (r : EEGRow) (hr : r ∈ startRows eeg) :
    r ∈ eeg :=
  List.mem_of_mem_filter hr

/-! ## Claims about the epoch extractor -/

/-- Claim C1, counterexample. The claim quantifies over every input event
list and channel series, but when the events outnumber the EventStart
markers, start_df.iloc[i] raises IndexError (none in the embedding), so
no epoch collection is produced at all: with an empty recording and one
event the extractor fails instead of producing one epoch. -/
theorem claim_C1_counterexample :
    ¬ ∀ (eeg : List EEGRow) (events : List ℕ) (D : ℕ),
        ∃ eps, getEpochedDF eeg events D = some eps ∧
          eps.length = events.length ∧
          eps.map (fun e => e.event_type) = events := by
  intro h
  obtain ⟨eps, heq, _, _⟩ := h [] [0] 4000
  simp [getEpochedDF, epochsAux, startRows] at heq

/-- Claim C1, amended: whenever every event index has a corresponding
EventStart marker (the number of events is at most the number of
EventStart = 1 rows, which holds for all valid recordings), getEpochedDF
produces exactly one epoch per input event, labels equal to the event
labels in event order; no event is skipped or merged. -/
theorem claim_C1 (eeg : List EEGRow) (events : List ℕ) (D : ℕ)
    (h : events.length ≤ (startRows eeg).length) :
    ∃ eps, getEpochedDF eeg events D = some eps ∧
      eps.length = events.length ∧
      eps.map (fun e => e.event_type) = events := by
  obtain ⟨eps, heps⟩ := Option.isSome_iff_exists.mp
    (epochsAux_isSome eeg (startRows eeg) D events 0 (by omega))
  obtain ⟨hlen, hmap, _⟩ := epochsAux_some_spec eeg (startRows eeg) D events 0 eps heps
  exact ⟨eps, heps, hlen, hmap⟩

/-- Two-sample recording with one EventStart marker, for the C1 witness. -/
def wEEG1 : List EEGRow := [⟨0, 1, fun _ => 0⟩, ⟨4, 0, fun _ => 0⟩]

/-- Claim C1 witness: the amended statement at a concrete input. -/
theorem claim_C1_witness :
    ([1] : List ℕ).length ≤ (startRows wEEG1).length ∧
    ∃ eps, getEpochedDF wEEG1 [1] 8 = some eps ∧
      eps.length = ([1] : List ℕ).length ∧
      eps.map (fun e => e.event_type) = [1] :=
  ⟨by decide, claim_C1 wEEG1 [1] 8 (by decide)⟩

/-- Claim C2: for the j-th event, the epoch holds, for every channel (in
all_chans order), exactly the samples of the rows whose timestamp t
satisfies start < t and t ≤ start + trial duration, where start is the
time of the j-th EventStart row — the filter
(eeg_df[time] > start_time) & (eeg_df[time] <= end_time) of the source. -/
theorem claim_C2 (eeg : List EEGRow) (events : List ℕ) (D : ℕ) (eps : List Epoch) (j : ℕ)
    (hsome : getEpochedDF eeg events D = some eps) (hj : j < events.length) :
    ∃ srow, (startRows eeg).get? j = some srow ∧
      eps.get? j = some
        { event_type := events.getD j 0
          start_time := srow.time
          data := all_chans.map (fun ch =>
            (ch, (eeg.filter (fun r =>
                decide (srow.time < r.time) && decide (r.time ≤ srow.time + D))).map
              (fun r => r.values ch))) } := by
  obtain ⟨_, _, hget⟩ := epochsAux_some_spec eeg (startRows eeg) D events 0 eps hsome
  obtain ⟨srow, hs, he⟩ := hget j hj
  exact ⟨srow, by simpa using hs, he⟩

/-- Four-sample recording with one EventStart marker at time 0, for the
C2 witness; the window (0, 8] selects the samples at times 4 and 8. -/
def wEEG2 : List EEGRow :=
  [⟨0, 1, fun _ => 0⟩, ⟨4, 0, fun _ => 0⟩, ⟨8, 0, fun _ => 0⟩, ⟨12, 0, fun _ => 0⟩]

/-- The epoch list getEpochedDF produces on wEEG2. -/
def wEps2 : List Epoch := [⟨1, 0, all_chans.map (fun ch => (ch, [0, 0]))⟩]

/-- Claim C2 witness: the window characterization at a concrete input. -/
theorem claim_C2_witness :
    getEpochedDF wEEG2 [1] 8 = some wEps2 ∧ 0 < ([1] : List ℕ).length ∧
    ∃ srow, (startRows wEEG2).get? 0 = some srow ∧
      wEps2.get? 0 = some
        { event_type := ([1] : List ℕ).getD 0 0
          start_time := srow.time
          data := all_chans.map (fun ch =>
            (ch, (wEEG2.filter (fun r =>
                decide (srow.time < r.time) && decide (r.time ≤ srow.time + 8))).map
              (fun r => r.values ch))) } :=
  ⟨by decide, by decide, claim_C2 wEEG2 [1] 8 wEps2 0 (by decide) (by decide)⟩

/-- Claim C3: on a grid recording with period p ms (p * fs = 1000 for a
sample rate of fs Hz) and a trial duration D divisible by the period,
every epoch whose window (start, start + D] lies inside the recording has
every channel slice of length exactly D * fs / 1000, the nominal
L = trial_duration (in seconds) x sample_rate. -/
theorem claim_C3 (t0 p N fs D : ℕ) (flag : ℕ → ℕ) (vals : ℕ → String → ℚ)
    (events : List ℕ) (j : ℕ)
    (hpfs : p * fs = 1000) (hdvd : p ∣ D)
    (hlen : events.length ≤ (startRows (gridEEG t0 p N flag vals)).length)
    (hj : j < events.length)
    (hwin : ((startRows (gridEEG t0 p N flag vals)).get? j).all
      (fun srow => decide (srow.time + D ≤ t0 + p * (N - 1)))) :
    ∃ eps ep, getEpochedDF (gridEEG t0 p N flag vals) events D = some eps ∧
      eps.length = events.length ∧ eps.get? j = some ep ∧
      ∀ pair ∈ ep.data, pair.2.length = D * fs / 1000 := by
  have hp : 0 < p := Nat.pos_of_ne_zero (fun h0 => by simp [h0] at hpfs)
  obtain ⟨eps, heps⟩ := Option.isSome_iff_exists.mp
    (epochsAux_isSome _ (startRows (gridEEG t0 p N flag vals)) D events 0 (by omega))
  obtain ⟨hlen2, _, hget⟩ := epochsAux_some_spec _ _ D events 0 eps heps
  obtain ⟨srow, hs, he⟩ := hget j hj
  have hs2 : (startRows (gridEEG t0 p N flag vals)).get? j = some srow := by simpa using hs
  have hsmem : srow ∈ gridEEG t0 p N flag vals :=
    startRows_subset _ _ (List.get?_mem hs2)
  obtain ⟨m, hmN, htime⟩ := mem_gridEEG_time _ _ _ _ _ _ hsmem
  rw [hs2] at hwin
  have hwin2 : srow.time + D ≤ t0 + p * (N - 1) := of_decide_eq_true hwin
  set c := D / p with hc
  have hDc : p * c = D := Nat.mul_div_cancel' hdvd
  have hmc : m + c ≤ N - 1 := by
    rw [htime, ← hDc, Nat.add_assoc, ← Nat.mul_add] at hwin2
    have := (nat_mul_le_left_iff hp).mp (by omega : p * (m + c) ≤ p * (N - 1))
    exact this
  refine ⟨eps, mkEpoch (gridEEG t0 p N flag vals) D (events.getD j 0) srow, heps, hlen2, he, ?_⟩
  intro pair hpair
  unfold mkEpoch at hpair
  obtain ⟨ch, _, hpaireq⟩ := List.mem_map.mp hpair
  have hlen3 : pair.2.length =
      (timeSlice (gridEEG t0 p N flag vals) srow.time (srow.time + D)).length := by
    rw [← hpaireq]
    simp
  rw [hlen3, htime, ← hDc, timeSlice_grid_length t0 p N flag vals m c hp]
  have hmin : min (m + c) (N - 1) = m + c := Nat.min_eq_left hmc
  rw [hmin]
  have hDfs : p * c * fs = c * 1000 := by
    rw [← hpfs]
    ring
  rw [hDfs, Nat.mul_div_cancel c (by omega)]
  omega

/-- EventStart flags of the end-to-end scenario: trials begin at sample
0 (t = 0 ms) and sample 1000 (t = 4000 ms). -/
def scenFlag : ℕ → ℕ := fun k => if k = 0 ∨ k = 1000 then 1 else 0

/-- Channel values of the end-to-end scenario (all zero; the lengths do
not depend on the values). -/
def scenVals : ℕ → String → ℚ := fun _ _ => 0

/-- The 10-second two-event 250 Hz scenario recording: 2500 samples at
times 0, 4, ..., 9996 ms. -/
def scenEEG : List EEGRow := gridEEG 0 4 2500 scenFlag scenVals

set_option maxRecDepth 100000 in
/-- Claim C3 witness: the scenario of the claim. Labels 0 and 1 are the
dataset encoding of "left" and "right"; trial_duration = 4000 ms at
250 Hz gives 1000-sample channel slices for both epochs. -/
theorem claim_C3_witness :
    (∃ eps ep, getEpochedDF scenEEG [0, 1] 4000 = some eps ∧
      eps.length = 2 ∧ eps.get? 0 = some ep ∧
      ∀ pair ∈ ep.data, pair.2.length = 1000) ∧
    (∃ eps ep, getEpochedDF scenEEG [0, 1] 4000 = some eps ∧
      eps.length = 2 ∧ eps.get? 1 = some ep ∧
      ∀ pair ∈ ep.data, pair.2.length = 1000) := by
  constructor
  · obtain ⟨eps, ep, h1, h2, h3, h4⟩ := claim_C3 0 4 2500 250 4000 scenFlag scenVals
      [0, 1] 0 (by decide) (by decide) (by decide) (by decide) (by decide)
    exact ⟨eps, ep, h1, h2, h3, fun pair hp => by simpa using h4 pair hp⟩
  · obtain ⟨eps, ep, h1, h2, h3, h4⟩ := claim_C3 0 4 2500 250 4000 scenFlag scenVals
      [0, 1] 1 (by decide) (by decide) (by decide) (by decide) (by decide)
    exact ⟨eps, ep, h1, h2, h3, fun pair hp => by simpa using h4 pair hp⟩

/-- Claim C6: when the window upper bound of the j-th event exceeds the
recording length, getEpochedDF still produces an epoch for that event
(no exception), and every channel slice is strictly shorter than the
nominal length L = D * fs / 1000 (so nothing is padded). -/
theorem claim_C6 (t0 p N fs D : ℕ) (flag : ℕ → ℕ) (vals : ℕ → String → ℚ)
    (events : List ℕ) (j : ℕ)
    (hpfs : p * fs = 1000) (hdvd : p ∣ D) (hD : 0 < D)
    (hlen : events.length ≤ (startRows (gridEEG t0 p N flag vals)).length)
    (hj : j < events.length)
    (hwin : ((startRows (gridEEG t0 p N flag vals)).get? j).all
      (fun srow => decide (t0 + p * (N - 1) < srow.time + D))) :
    ∃ eps ep, getEpochedDF (gridEEG t0 p N flag vals) events D = some eps ∧
      eps.length = events.length ∧ eps.get? j = some ep ∧
      ∀ pair ∈ ep.data, pair.2.length < D * fs / 1000 := by
  have hp : 0 < p := Nat.pos_of_ne_zero (fun h0 => by simp [h0] at hpfs)
  obtain ⟨eps, heps⟩ := Option.isSome_iff_exists.mp
    (epochsAux_isSome _ (startRows (gridEEG t0 p N flag vals)) D events 0 (by omega))
  obtain ⟨hlen2, _, hget⟩ := epochsAux_some_spec _ _ D events 0 eps heps
  obtain ⟨srow, hs, he⟩ := hget j hj
  have hs2 : (startRows (gridEEG t0 p N flag vals)).get? j = some srow := by simpa using hs
  have hsmem : srow ∈ gridEEG t0 p N flag vals :=
    startRows_subset _ _ (List.get?_mem hs2)
  obtain ⟨m, hmN, htime⟩ := mem_gridEEG_time _ _ _ _ _ _ hsmem
  rw [hs2] at hwin
  have hwin2 : t0 + p * (N - 1) < srow.time + D := of_decide_eq_true hwin
  set c := D / p with hc
  have hDc : p * c = D := Nat.mul_div_cancel' hdvd
  have hcpos : 0 < c := by
    rcases Nat.eq_zero_or_pos c with h0 | h0
    · rw [h0, Nat.mul_zero] at hDc
      omega
    · exact h0
  have hmc : N - 1 < m + c := by
    rw [htime, ← hDc, Nat.add_assoc, ← Nat.mul_add] at hwin2
    by_contra hcon
    push_neg at hcon
    have := (nat_mul_le_left_iff hp).mpr hcon
    omega
  refine ⟨eps, mkEpoch (gridEEG t0 p N flag vals) D (events.getD j 0) srow, heps, hlen2, he, ?_⟩
  intro pair hpair
  unfold mkEpoch at hpair
  obtain ⟨ch, _, hpaireq⟩ := List.mem_map.mp hpair
  have hlen3 : pair.2.length =
      (timeSlice (gridEEG t0 p N flag vals) srow.time (srow.time + D)).length := by
    rw [← hpaireq]
    simp
  rw [hlen3, htime, ← hDc, timeSlice_grid_length t0 p N flag vals m c hp]
  have hDfs : p * c * fs = c * 1000 := by
    rw [← hpfs]
    ring
  rw [hDfs, Nat.mul_div_cancel c (by omega)]
  omega

/-- EventStart flags of the truncated-window scenario: one trial begins
at sample 8 (t = 32 ms) of a 10-sample recording ending at t = 36 ms. -/
def truncFlag : ℕ → ℕ := fun k => if k = 8 then 1 else 0

/-- Claim C6 witness: a 10-sample 250 Hz recording with an event at
t = 32 ms and a 4000 ms trial duration; the epoch is produced and its
slices are shorter than the nominal 1000 samples. -/
theorem claim_C6_witness :
    ∃ eps ep, getEpochedDF (gridEEG 0 4 10 truncFlag scenVals) [0] 4000 = some eps ∧
      eps.length = 1 ∧ eps.get? 0 = some ep ∧
      ∀ pair ∈ ep.data, pair.2.length < 1000 := by
  obtain ⟨eps, ep, h1, h2, h3, h4⟩ := claim_C6 0 4 10 250 4000 truncFlag scenVals
    [0] 0 (by decide) (by decide) (by decide) (by decide) (by decide) (by decide)
  exact ⟨eps, ep, h1, h2, h3, fun pair hp => by simpa using h4 pair hp⟩

/-! ## Feature aggregation (notebook 01)

The epoched dataframe loaded from the pickle is a list of rows (one per
trial), each with its event_type label and per-channel sample lists.
pyeeg.bin_power is an external library call; the aggregation is stated
for an arbitrary power-ratio function pr standing for
getPowerRatio(data, binning) = np.array(pyeeg.bin_power(data, binning, fs)[1]).
Dict keys of the form ch + "_" + str(interval) are modelled by the
structured pair (ch, interval); this renaming is injective for the fixed
string formats the notebook uses. -/

/-- Key of a power-ratio feature column: the channel name and the
frequency interval that the source encodes as ch + "_" + str(interval). -/
abbrev PKey : Type := String × (ℚ × ℚ)

/-- Embedding of getIntervals(binning): for i, val in
enumerate(binning[:-1]) collect (val, binning[i+1]). -/
def getIntervals (binning : List ℚ) : List (ℚ × ℚ) :=
  binning.dropLast.enum.map (fun iv => (iv.2, binning.getD (iv.1 + 1) 0))

/-- The intervals are exactly the consecutive pairs of the boundary
list: getIntervals b = b.zip b.tail. -/
theorem getIntervals_eq_zip (binning : List ℚ) :
    getIntervals binning = binning.zip binning.tail := by
  apply List.ext_getElem
  · simp only [getIntervals, List.length_map, List.enum_length, List.length_dropLast,
      List.length_zip, List.length_tail]
    omega
  · intro i h1 h2
    have hi : i < binning.length - 1 := by
      simpa [getIntervals] using h1
    have hi2 : i + 1 < binning.length := by omega
    simp only [getIntervals, List.getElem_map, List.getElem_enum, List.getElem_zip,
      List.getElem_dropLast, List.getElem_tail]
    rw [List.getD_eq_getElem binning 0 hi2]

theorem getIntervals_length (binning : List ℚ) :
    (getIntervals binning).length = binning.length - 1 := by
  simp [getIntervals]

/-- One row of the epoched dataframe consumed by notebook 01. -/
structure EpochRow where
  event_type : ℕ
  chans : List (String × List ℚ)
deriving DecidableEq

/-- Embedding of the column access eeg_epoch_full_df[ch][i]; none models
the KeyError on a missing channel column. -/
def chanData (r : EpochRow) (ch : String) : Option (List ℚ) :=
  (r.chans.find? (fun c => c.1 = ch)).map (fun c => c.2)

/-- The power_ratios dict after the aggregation loop: the y column and
the per-(channel, interval) feature columns in insertion order. -/
structure PRTable where
  y : List ℕ
  cols : List (PKey × List ℚ)
deriving DecidableEq

/-- One iteration of the outer power_ratios loop over the channels: for
each ch in eeg_chans compute ratios = getPowerRatio(...), then for j,
interval in enumerate(intervals) append ratios[j] under key
(ch, interval). -/
def prRowStep (pr : List ℚ → List ℚ → List ℚ) (binning : List ℚ)
    (intervals : List (ℚ × ℚ)) (r : EpochRow)
    (cols : List (PKey × List ℚ)) : Option (List (PKey × List ℚ)) :=
  eeg_chans.foldlM (fun cols ch =>
    (chanData r ch).map (fun dat =>
      intervals.enum.foldl
        (fun cols ji => dappend cols (ch, ji.2) ((pr dat binning).getD ji.1 0)) cols))
    cols

/-- Embedding of the power_ratios construction loop: per epoch, append
the power ratios of every EEG channel and interval, then append the
label to the y column. -/
def power_ratios (pr : List ℚ → List ℚ → List ℚ) (binning : List ℚ)
    (epochs : List EpochRow) : Option PRTable :=
  epochs.foldlM (fun t r =>
    (prRowStep pr binning (getIntervals binning) r t.cols).map
      (fun cols2 => ⟨t.y ++ [r.event_type], cols2⟩))
    ⟨[], []⟩

/-- The expected column keys: one per (channel, interval) pair, channels
outer, intervals inner, matching the loop nesting order. -/
def keyProduct (intervals : List (ℚ × ℚ)) : List PKey :=
  eeg_chans.flatMap (fun ch => intervals.map (fun iv => (ch, iv)))

/-- The key/value pairs one epoch row contributes, in append order. -/
def rowKVs (pr : List ℚ → List ℚ → List ℚ) (binning : List ℚ)
    (intervals : List (ℚ × ℚ)) (r : EpochRow) : List (PKey × ℚ) :=
  eeg_chans.flatMap (fun ch =>
    intervals.enum.map (fun ji =>
      ((ch, ji.2), (pr ((chanData r ch).getD []) binning).getD ji.1 0)))

theorem rowKVs_keys (pr : List ℚ → List ℚ → List ℚ) (binning : List ℚ)
    (intervals : List (ℚ × ℚ)) (r : EpochRow) :
    (rowKVs pr binning intervals r).map (fun kv => kv.1) = keyProduct intervals := by
  unfold rowKVs keyProduct
  rw [List.map_flatMap]
  congr 1
  funext ch
  rw [List.map_map]
  have h2 : intervals.enum.map ((fun kv : PKey × ℚ => kv.1) ∘
      (fun ji => ((ch, ji.2), (pr ((chanData r ch).getD []) binning).getD ji.1 0)))
      = intervals.enum.map (fun ji => (ch, ji.2)) := rfl
  rw [h2]
  have h3 : intervals.enum.map (fun ji => ((ch, ji.2) : PKey))
      = (intervals.enum.map (fun ji => ji.2)).map (fun iv => (ch, iv)) := by
    rw [List.map_map]
    rfl
  rw [h3, List.enum_map_snd]

theorem prRowStep_eq (pr : List ℚ → List ℚ → List ℚ) (binning : List ℚ)
    (intervals : List (ℚ × ℚ)) (r : EpochRow) (cols : List (PKey × List ℚ))
    (hch : ∀ ch ∈ eeg_chans, (chanData r ch).isSome) :
    prRowStep pr binning intervals r cols
      = some (dappendMany cols (rowKVs pr binning intervals r)) := by
  unfold prRowStep rowKVs
  suffices H : ∀ (chans : List String) (cols : List (PKey × List ℚ)),
      (∀ ch ∈ chans, (chanData r ch).isSome) →
      chans.foldlM (fun cols ch =>
        (chanData r ch).map (fun dat =>
          intervals.enum.foldl
            (fun cols ji => dappend cols (ch, ji.2) ((pr dat binning).getD ji.1 0)) cols))
        cols
      = some (dappendMany cols (chans.flatMap (fun ch =>
          intervals.enum.map (fun ji =>
            ((ch, ji.2), (pr ((chanData r ch).getD []) binning).getD ji.1 0))))) by
    exact H eeg_chans cols hch
  intro chans
  induction chans with
  | nil => intro cols _; rfl
  | cons ch chans ih =>
    intro cols hch2
    obtain ⟨dat, hdat⟩ := Option.isSome_iff_exists.mp (hch2 ch (List.mem_cons_self ch chans))
    rw [List.foldlM_cons, hdat]
    have hgetD : (chanData r ch).getD [] = dat := by rw [hdat]; rfl
    have hinner : intervals.enum.foldl
        (fun cols ji => dappend cols (ch, ji.2) ((pr dat binning).getD ji.1 0)) cols
        = dappendMany cols (intervals.enum.map (fun ji =>
            ((ch, ji.2), (pr ((chanData r ch).getD []) binning).getD ji.1 0))) := by
      rw [hgetD]
      unfold dappendMany
      rw [List.foldl_map]
    have hmap : (some dat).map (fun dat =>
        intervals.enum.foldl
          (fun cols ji => dappend cols (ch, ji.2) ((pr dat binning).getD ji.1 0)) cols)
        = some (intervals.enum.foldl
          (fun cols ji => dappend cols (ch, ji.2) ((pr dat binning).getD ji.1 0)) cols) := rfl
    rw [hmap]
    have hbind : ∀ (x : List (PKey × List ℚ)) (g : List (PKey × List ℚ) →
        Option (List (PKey × List ℚ))), (some x >>= g) = g x := fun x g => rfl
    rw [hbind, ih _ (fun c hc => hch2 c (List.mem_cons_of_mem _ hc)), hinner]
    congr 1
    rw [List.flatMap_cons]
    unfold dappendMany
    rw [List.foldl_append]

theorem power_ratios_inv (pr : List ℚ → List ℚ → List ℚ) (binning : List ℚ) :
    ∀ (epochs : List EpochRow) (y0 : List ℕ) (cols0 : List (PKey × List ℚ)),
      dkeys cols0 = keyProduct (getIntervals binning) →
      (∀ r ∈ epochs, ∀ ch ∈ eeg_chans, (chanData r ch).isSome) →
      ∃ t, epochs.foldlM (fun t r =>
          (prRowStep pr binning (getIntervals binning) r t.cols).map
            (fun cols2 => ⟨t.y ++ [r.event_type], cols2⟩))
          (⟨y0, cols0⟩ : PRTable) = some t ∧
        t.y = y0 ++ epochs.map (fun r => r.event_type) ∧
        dkeys t.cols = keyProduct (getIntervals binning) := by
  intro epochs
  induction epochs with
  | nil =>
    intro y0 cols0 hkeys _
    exact ⟨⟨y0, cols0⟩, rfl, by simp, hkeys⟩
  | cons r epochs ih =>
    intro y0 cols0 hkeys hch
    have hstep := prRowStep_eq pr binning (getIntervals binning) r cols0
      (fun ch hc => hch r (List.mem_cons_self r epochs) ch hc)
    have hkeys1 : dkeys (dappendMany cols0 (rowKVs pr binning (getIntervals binning) r))
        = keyProduct (getIntervals binning) := by
      rw [dkeys_dappendMany_subset]
      · exact hkeys
      · intro k hk
        rw [rowKVs_keys] at hk
        rw [hkeys]
        exact hk
    obtain ⟨t, hfold, hy, hk2⟩ := ih (y0 ++ [r.event_type])
      (dappendMany cols0 (rowKVs pr binning (getIntervals binning) r)) hkeys1
      (fun r2 hr2 ch hc => hch r2 (List.mem_cons_of_mem _ hr2) ch hc)
    refine ⟨t, ?_, ?_, hk2⟩
    · rw [List.foldlM_cons, hstep]
      exact hfold
    · rw [hy]
      simp

/-- Structure of the table the power_ratios loop builds: it succeeds on
channel-complete epochs, the y column lists the labels in order, and the
feature columns are keyed by the (channel, interval) products (channels
outer, intervals inner) as soon as there is at least one epoch. -/
theorem power_ratios_spec (pr : List ℚ → List ℚ → List ℚ) (binning : List ℚ)
    (epochs : List EpochRow)
    (hnd : (keyProduct (getIntervals binning)).Nodup)
    (hch : ∀ r ∈ epochs, ∀ ch ∈ eeg_chans, (chanData r ch).isSome) :
    ∃ t, power_ratios pr binning epochs = some t ∧
      t.y = epochs.map (fun r => r.event_type) ∧
      dkeys t.cols = (if epochs.isEmpty then ([] : List PKey)
        else keyProduct (getIntervals binning)) := by
  cases epochs with
  | nil => exact ⟨⟨[], []⟩, rfl, rfl, rfl⟩
  | cons r epochs =>
    have hstep := prRowStep_eq pr binning (getIntervals binning) r []
      (fun ch hc => hch r (List.mem_cons_self r epochs) ch hc)
    have hkeys1 : dkeys (dappendMany [] (rowKVs pr binning (getIntervals binning) r))
        = keyProduct (getIntervals binning) := by
      rw [dkeys_dappendMany_disjoint]
      · rw [rowKVs_keys]
        rfl
      · rw [rowKVs_keys]
        exact hnd
      · intro k _ hk
        cases hk
    obtain ⟨t, hfold, hy, hk2⟩ := power_ratios_inv pr binning epochs [r.event_type]
      (dappendMany [] (rowKVs pr binning (getIntervals binning) r)) hkeys1
      (fun r2 hr2 ch hc => hch r2 (List.mem_cons_of_mem _ hr2) ch hc)
    refine ⟨t, ?_, by simpa using hy, by simpa using hk2⟩
    unfold power_ratios
    rw [List.foldlM_cons, hstep]
    exact hfold

/-- A strictly increasing boundary list yields pairwise distinct
intervals. -/
theorem getIntervals_nodup (binning : List ℚ) (hsort : binning.Chain' (· < ·)) :
    (getIntervals binning).Nodup := by
  have hbn : binning.Nodup :=
    (List.chain'_iff_pairwise.mp hsort).nodup
  have hfst : (getIntervals binning).map Prod.fst = binning.dropLast := by
    rw [getIntervals_eq_zip]
    apply List.ext_getElem
    · simp only [List.length_map, List.length_zip, List.length_tail, List.length_dropLast]
      omega
    · intro i h1 h2
      simp only [List.getElem_map, List.getElem_zip, List.getElem_dropLast]
  apply List.Nodup.of_map Prod.fst
  rw [hfst]
  exact hbn.sublist (List.dropLast_sublist binning)

/-- Distinct channels and distinct intervals give pairwise distinct
column keys. -/
theorem keyProduct_nodup (intervals : List (ℚ × ℚ)) (hnd : intervals.Nodup) :
    (keyProduct intervals).Nodup := by
  have hc : eeg_chans.Nodup := by decide
  have := List.Nodup.product hc hnd
  simpa [List.product, SProd.sprod, keyProduct] using this

/-! ## Claims about the feature aggregator -/

/-- Claim C4: for an ordered boundary list b0 < b1 < ... < bn (n >= 1),
getIntervals derives exactly the n consecutive pairs (b0,b1), ...,
(b(n-1),bn), and on a nonempty channel-complete epoch collection the
power-ratio table carries exactly one feature column per (channel,
interval) pair: its column keys are the (channel, interval) products,
pairwise distinct. -/
theorem claim_C4 (pr : List ℚ → List ℚ → List ℚ) (binning : List ℚ)
    (epochs : List EpochRow)
    (hsort : binning.Chain' (· < ·)) (_hn : 2 ≤ binning.length)
    (hne : epochs ≠ [])
    (hch : ∀ r ∈ epochs, ∀ ch ∈ eeg_chans, (chanData r ch).isSome) :
    getIntervals binning = binning.zip binning.tail ∧
    (getIntervals binning).length = binning.length - 1 ∧
    (keyProduct (getIntervals binning)).Nodup ∧
    ∃ t, power_ratios pr binning epochs = some t ∧
      dkeys t.cols = keyProduct (getIntervals binning) := by
  have hnd := keyProduct_nodup _ (getIntervals_nodup binning hsort)
  obtain ⟨t, hok, _, hkeys⟩ := power_ratios_spec pr binning epochs hnd hch
  refine ⟨getIntervals_eq_zip binning, getIntervals_length binning, hnd, t, hok, ?_⟩
  rw [hkeys]
  have hne2 : epochs.isEmpty = false := by
    cases epochs with
    | nil => exact absurd rfl hne
    | cons a l => rfl
  rw [hne2]
  rfl

/-- The default binning [0.5, 4, 7, 12, 30] of the notebook. -/
def default_binning : List ℚ := [1/2, 4, 7, 12, 30]

/-- A concrete stand-in for the external pyeeg power-ratio computation,
used only in witnesses (the claims hold for every such function). -/
def wPRfun : List ℚ → List ℚ → List ℚ := fun _ _ => [1/4, 1/4, 1/4, 1/4]

/-- A concrete epoch row carrying every channel, for witnesses. -/
def wEpochA : EpochRow := ⟨0, all_chans.map (fun ch => (ch, [1, 2]))⟩

/-- Claim C4 witness: with the default binning and one epoch, the four
intervals are the consecutive boundary pairs and each channel gets
exactly 4 interval columns. -/
theorem claim_C4_witness :
    default_binning.Chain' (· < ·) ∧ 2 ≤ default_binning.length ∧
    (getIntervals default_binning = default_binning.zip default_binning.tail ∧
      (getIntervals default_binning).length = default_binning.length - 1 ∧
      (keyProduct (getIntervals default_binning)).Nodup ∧
      ∃ t, power_ratios wPRfun default_binning [wEpochA] = some t ∧
        dkeys t.cols = keyProduct (getIntervals default_binning)) ∧
    ((keyProduct (getIntervals default_binning)).filter
      (fun k => decide (k.1 = "C3"))).length = 4 ∧
    ((keyProduct (getIntervals default_binning)).filter
      (fun k => decide (k.1 = "Cz"))).length = 4 ∧
    ((keyProduct (getIntervals default_binning)).filter
      (fun k => decide (k.1 = "C4"))).length = 4 :=
  ⟨by norm_num [default_binning, List.chain'_cons], by decide,
    claim_C4 wPRfun default_binning [wEpochA]
      (by norm_num [default_binning, List.chain'_cons]) (by decide)
      (by intro h; cases h) (by decide),
    by decide, by decide, by decide⟩

/-- Claim C8 (the code side): with an empty boundary list the aggregator
does not fail fast; getIntervals([]) is the empty interval list and the
power_ratios loop runs to completion, producing the interval-free table
whose only column is y. The failure demanded by the spec does not
happen. -/
theorem claim_C8 (pr : List ℚ → List ℚ → List ℚ) (epochs : List EpochRow)
    (hch : ∀ r ∈ epochs, ∀ ch ∈ eeg_chans, (chanData r ch).isSome) :
    power_ratios pr [] epochs
      = some ⟨epochs.map (fun r => r.event_type), []⟩ := by
  obtain ⟨t, hok, hy, hkeys⟩ := power_ratios_spec pr [] epochs (by decide) hch
  have hcols : t.cols = [] := by
    have hk : dkeys t.cols = [] := by
      rw [hkeys]
      cases epochs <;> rfl
    cases hc : t.cols with
    | nil => rfl
    | cons c rest =>
      rw [hc] at hk
      simp [dkeys] at hk
  rw [hok]
  obtain ⟨y, cols⟩ := t
  simp only at hy hcols
  rw [hy, hcols]

/-- Claim C8 witness: the silent interval-free table at a concrete
input. -/
theorem claim_C8_witness :
    (∀ r ∈ [wEpochA], ∀ ch ∈ eeg_chans, (chanData r ch).isSome) ∧
    power_ratios wPRfun [] [wEpochA] = some ⟨[0], []⟩ :=
  ⟨by decide, claim_C8 wPRfun [wEpochA] (by decide)⟩

/-! ## Downstream feature steps (band ratios, channel differences,
per-class statistics) -/

/-- Embedding of row[key] where row is the i-th row of
power_ratios_df.iterrows(): the value of column key at row index i; none
models the KeyError on a missing column. -/
def rowGet (t : PRTable) (i : ℕ) (k : PKey) : Option ℚ :=
  (dlookup t.cols k).map (fun col => col.getD i 0)

/-- Embedding of the theta_beta_ratios loop: for every row and every EEG
channel, read the hard-coded columns ch + "_(4, 7)" and ch + "_(12, 30)"
and append theta_val / beta_val under ch + "_theta_beta" (keyed here by
ch; the constant suffix makes the renaming injective). -/
def theta_beta_step (t : PRTable) : Option (List (String × List ℚ)) :=
  buildTable (List.range t.y.length) eeg_chans
    (fun i ch => (rowGet t i (ch, (4, 7))).bind (fun tv =>
      (rowGet t i (ch, (12, 30))).map (fun bv => tv / bv)))

/-- Embedding of the C3_C4_differences loop: for every row and every
interval, read columns "C3_" + str(interval) and "C4_" + str(interval)
and append C3_val - C4_val under "C3_C4_diff_" + str(interval) (keyed
here by the interval; the constant prefix makes the renaming
injective). -/
def c3c4_step (intervals : List (ℚ × ℚ)) (t : PRTable) :
    Option (List ((ℚ × ℚ) × List ℚ)) :=
  buildTable (List.range t.y.length) intervals
    (fun i iv => (rowGet t i ("C3", iv)).bind (fun a =>
      (rowGet t i ("C4", iv)).map (fun b => a - b)))

/-- Embedding of feature_df = pd.concat([power_ratios_df, band_ratios_df,
C3_C4_differences_df], axis=1): the three column blocks side by side. -/
structure FeatureDF where
  power : PRTable
  band : List (String × List ℚ)
  diff : List ((ℚ × ℚ) × List ℚ)
deriving DecidableEq

/-- The concat of the feature blocks. -/
def feature_concat (t : PRTable) (band : List (String × List ℚ))
    (diff : List ((ℚ × ℚ) × List ℚ)) : FeatureDF :=
  ⟨t, band, diff⟩

/-- The column restricted to the epochs of one class label:
this_data = power_ratios_df[power_ratios_df[y] == event_type][key]. -/
def labelData (ys : List ℕ) (col : List ℚ) (ev : ℕ) : List ℚ :=
  ((ys.zip col).filter (fun p => decide (p.1 = ev))).map (fun p => p.2)

/-- Modelled from numpy's documented semantics (external library):
np.mean of the values. -/
noncomputable def np_mean (l : List ℚ) : ℝ :=
  (l.map (fun x => (x : ℝ))).sum / (l.length : ℝ)

/-- Modelled from numpy's documented semantics (external library):
np.std with its default ddof = 0, i.e. the population standard
deviation sqrt(mean(|x - mean(x)|^2)). -/
noncomputable def np_std (l : List ℚ) : ℝ :=
  Real.sqrt ((l.map (fun x => ((x : ℝ) - np_mean l) ^ 2)).sum / (l.length : ℝ))

/-- Embedding of the this_data selection inside chan_frequency_sems;
none models the KeyError on a missing column key. -/
def labelColumn (t : PRTable) (ev : ℕ) (k : PKey) : Option (List ℚ) :=
  (dlookup t.cols k).map (fun col => labelData t.y col ev)

/-- Embedding of the chan_frequency_sems loop: for event_type in
event_types, for ch in eeg_chans, for interval in intervals, append
sem = np.std(this_data) / np.sqrt(len(this_data)) under (ch, interval). -/
noncomputable def chan_frequency_sems (t : PRTable) (intervals : List (ℚ × ℚ)) :
    Option (List (PKey × List ℝ)) :=
  buildTable event_type_keys (keyProduct intervals)
    (fun ev k => (labelColumn t ev k).map
      (fun data => np_std data / Real.sqrt ((data.length : ℝ))))

/-- Population standard deviation as the claim words it, written
independently of the numpy model: the square root of the mean squared
deviation from the arithmetic mean (divisor n, not n - 1). -/
noncomputable def popStdSpec (l : List ℚ) : ℝ :=
  Real.sqrt ((l.map (fun x =>
    ((x : ℝ) - (l.map (fun x => (x : ℝ))).sum / (l.length : ℝ)) ^ 2)).sum / (l.length : ℝ))

theorem np_std_eq_popStdSpec (l : List ℚ) : np_std l = popStdSpec l := rfl

theorem mem_keyProduct_iff (intervals : List (ℚ × ℚ)) (ch : String) (iv : ℚ × ℚ) :
    (ch, iv) ∈ keyProduct intervals ↔ ch ∈ eeg_chans ∧ iv ∈ intervals := by
  simp [keyProduct]

/-- Number of rows of one label in the restricted column: filtering the
zip of the label column with a full-length feature column keeps exactly
count ev rows. -/
theorem labelData_length (ys : List ℕ) (col : List ℚ) (ev : ℕ)
    (h : col.length = ys.length) :
    (labelData ys col ev).length = ys.count ev := by
  unfold labelData
  rw [List.length_map]
  induction ys generalizing col with
  | nil => simp
  | cons y ys ih =>
    cases col with
    | nil => simp at h
    | cons v col =>
      have h2 : col.length = ys.length := by simpa using h
      by_cases hy : y = ev
      · subst hy
        simp [List.zip_cons_cons, List.filter_cons, List.count_cons, ih col h2]
      · simp [List.zip_cons_cons, List.filter_cons, List.count_cons, hy, ih col h2]

theorem dlookup_mem {κ ε : Type} [DecidableEq κ] (d : List (κ × List ε)) (k : κ)
    (l : List ε) (h : dlookup d k = some l) : (k, l) ∈ d := by
  induction d with
  | nil => cases h
  | cons c d ih =>
    unfold dlookup at h
    by_cases hc : c.1 = k
    · rw [if_pos hc] at h
      have hl : c.2 = l := by injection h
      have hkl : (k, l) = c := by rw [← hc, ← hl]
      exact List.mem_cons.mpr (Or.inl hkl)
    · rw [if_neg hc] at h
      exact List.mem_cons_of_mem _ (ih h)

/-- Claim C5: every entry of the chan_frequency_sems table is the
population standard deviation of the feature column restricted to the
epochs of that label, divided by the square root of the number of
epochs of that label (np.std uses its default ddof = 0 and the numerator
is the population, not the sample, standard deviation). -/
theorem claim_C5 (t : PRTable) (intervals : List (ℚ × ℚ))
    (hnd : intervals.Nodup)
    (hkeys : ∀ ch ∈ eeg_chans, ∀ iv ∈ intervals, (dlookup t.cols (ch, iv)).isSome)
    (hlen : ∀ c ∈ t.cols, c.2.length = t.y.length) :
    ∃ d, chan_frequency_sems t intervals = some d ∧
      ∀ ch ∈ eeg_chans, ∀ iv ∈ intervals, ∀ col,
        dlookup t.cols (ch, iv) = some col →
        dlookup d (ch, iv) = some (event_type_keys.map (fun ev =>
          popStdSpec (labelData t.y col ev) / Real.sqrt ((t.y.count ev : ℝ)))) := by
  have hknd : (keyProduct intervals).Nodup := keyProduct_nodup intervals hnd
  have hf : ∀ ev ∈ event_type_keys, ∀ k ∈ keyProduct intervals,
      ((labelColumn t ev k).map
        (fun data => np_std data / Real.sqrt ((data.length : ℝ)))).isSome := by
    intro ev _ k hk
    obtain ⟨hc, hi⟩ := (mem_keyProduct_iff intervals k.1 k.2).mp (by simpa using hk)
    obtain ⟨col, hcol⟩ := Option.isSome_iff_exists.mp (hkeys k.1 hc k.2 hi)
    unfold labelColumn
    rw [hcol]
    rfl
  obtain ⟨d, hd, _, hlk⟩ := buildTable_spec event_type_keys (keyProduct intervals) _ hknd hf
  refine ⟨d, hd, ?_⟩
  intro ch hch iv hiv col hcol
  have hk : (ch, iv) ∈ keyProduct intervals := (mem_keyProduct_iff _ _ _).mpr ⟨hch, hiv⟩
  rw [hlk (ch, iv) hk (by intro h; cases h)]
  congr 1
  apply List.map_eq_map_iff.mpr
  intro ev _
  have hcollen : col.length = t.y.length := hlen ((ch, iv), col) (dlookup_mem _ _ _ hcol)
  have hlabel : labelColumn t ev (ch, iv) = some (labelData t.y col ev) := by
    unfold labelColumn
    rw [hcol]
    rfl
  rw [hlabel]
  have : (some (labelData t.y col ev)).map
      (fun data => np_std data / Real.sqrt ((data.length : ℝ)))
      = some (np_std (labelData t.y col ev) /
          Real.sqrt (((labelData t.y col ev).length : ℝ))) := rfl
  rw [this]
  rw [Option.iget_some, np_std_eq_popStdSpec, labelData_length t.y col ev hcollen]

/-- Concrete power-ratio table for the C5 witness: two epochs with
labels 0 and 1, one interval, all three EEG channel columns present. -/
def wT5 : PRTable :=
  ⟨[0, 1], (keyProduct [((4 : ℚ), (7 : ℚ))]).map (fun k => (k, [1/2, 1/3]))⟩

/-- Claim C5 witness: the per-class standard error formula at a concrete
table. -/
theorem claim_C5_witness :
    ([((4 : ℚ), (7 : ℚ))] : List (ℚ × ℚ)).Nodup ∧
    (∀ ch ∈ eeg_chans, ∀ iv ∈ [((4 : ℚ), (7 : ℚ))], (dlookup wT5.cols (ch, iv)).isSome) ∧
    (∀ c ∈ wT5.cols, c.2.length = wT5.y.length) ∧
    (∃ d, chan_frequency_sems wT5 [((4 : ℚ), (7 : ℚ))] = some d ∧
      ∀ ch ∈ eeg_chans, ∀ iv ∈ [((4 : ℚ), (7 : ℚ))], ∀ col,
        dlookup wT5.cols (ch, iv) = some col →
        dlookup d (ch, iv) = some (event_type_keys.map (fun ev =>
          popStdSpec (labelData wT5.y col ev) / Real.sqrt ((wT5.y.count ev : ℝ))))) :=
  ⟨by decide, by decide, by decide,
    claim_C5 wT5 [((4 : ℚ), (7 : ℚ))] (by decide) (by decide) (by decide)⟩

/-- Claim C7: the band-ratio computation performs the division
theta_val / beta_val with no guard on the denominator: whenever the two
hard-coded column lookups succeed at a row, the appended value is
exactly theta_val / beta_val, with no hypothesis that beta_val is
nonzero — at beta_val = 0 the division is applied all the same (the
source has no zero-check branch; Python floats would propagate the
resulting inf/nan, while the total division of the embedding returns
0). -/
theorem claim_C7 (t : PRTable) (i : ℕ) (ch : String) (tv bv : ℚ)
    (hch : ch ∈ eeg_chans) (hi : i < t.y.length)
    (hall : ∀ j < t.y.length, ∀ c ∈ eeg_chans,
      (rowGet t j (c, (4, 7))).isSome ∧ (rowGet t j (c, (12, 30))).isSome)
    (htv : rowGet t i (ch, (4, 7)) = some tv)
    (hbv : rowGet t i (ch, (12, 30)) = some bv) :
    ∃ d l, theta_beta_step t = some d ∧ dlookup d ch = some l ∧
      l.getD i 0 = tv / bv := by
  have hf : ∀ j ∈ List.range t.y.length, ∀ c ∈ eeg_chans,
      ((rowGet t j (c, (4, 7))).bind (fun tv =>
        (rowGet t j (c, (12, 30))).map (fun bv => tv / bv))).isSome := by
    intro j hj c hc
    obtain ⟨h1, h2⟩ := hall j (List.mem_range.mp hj) c hc
    obtain ⟨x, hx⟩ := Option.isSome_iff_exists.mp h1
    obtain ⟨y2, hy2⟩ := Option.isSome_iff_exists.mp h2
    rw [hx, hy2]
    rfl
  have hnd : eeg_chans.Nodup := by decide
  obtain ⟨d, hd, _, hlk⟩ := buildTable_spec (List.range t.y.length) eeg_chans _ hnd hf
  have hne : List.range t.y.length ≠ [] := by
    intro h0
    have h1 : t.y.length = 0 := by simpa using congrArg List.length h0
    omega
  have hlk2 := hlk ch hch hne
  refine ⟨d, _, hd, hlk2, ?_⟩
  have hilen : i < ((List.range t.y.length).map (fun j =>
      ((rowGet t j (ch, (4, 7))).bind (fun tv =>
        (rowGet t j (ch, (12, 30))).map (fun bv => tv / bv))).iget)).length := by
    simpa using hi
  rw [List.getD_eq_getElem _ 0 hilen]
  simp only [List.getElem_map, List.getElem_range]
  rw [htv, hbv]
  rfl

/-- Concrete table for the C7 witness: one epoch whose beta column
value is zero. -/
def wT7 : PRTable :=
  ⟨[0], (keyProduct [((4 : ℚ), (7 : ℚ)), ((12 : ℚ), (30 : ℚ))]).map
    (fun k => (k, if k.2 = ((12 : ℚ), (30 : ℚ)) then [0] else [1]))⟩

/-- Claim C7 witness: at a row whose beta power-bin value is zero the
division is still applied, storing 1 / 0. -/
theorem claim_C7_witness :
    "C3" ∈ eeg_chans ∧ 0 < wT7.y.length ∧
    (∀ j < wT7.y.length, ∀ c ∈ eeg_chans,
      (rowGet wT7 j (c, (4, 7))).isSome ∧ (rowGet wT7 j (c, (12, 30))).isSome) ∧
    rowGet wT7 0 ("C3", (4, 7)) = some 1 ∧
    rowGet wT7 0 ("C3", (12, 30)) = some 0 ∧
    ∃ d l, theta_beta_step wT7 = some d ∧ dlookup d "C3" = some l ∧
      l.getD 0 0 = 1 / 0 :=
  ⟨by decide, by decide, by decide, by decide, by decide,
    claim_C7 wT7 0 "C3" 1 0 (by decide) (by decide) (by decide) (by decide) (by decide)⟩

theorem rowGet_isSome_iff (t : PRTable) (i : ℕ) (k : PKey) :
    (rowGet t i k).isSome ↔ (dlookup t.cols k).isSome := by
  unfold rowGet
  cases dlookup t.cols k <;> simp

/-- Claim C9: the channel-difference step reads only the power-ratio
table and derives, per row and per configured interval, exactly the
signed value C3 power minus C4 power; the feature concat places its
columns alongside — not in place of — the power-ratio and band-ratio
blocks, which it leaves unchanged. -/
theorem claim_C9 (t : PRTable) (intervals : List (ℚ × ℚ)) (band : List (String × List ℚ))
    (hnd : intervals.Nodup)
    (hall : ∀ i < t.y.length, ∀ iv ∈ intervals,
      (rowGet t i ("C3", iv)).isSome ∧ (rowGet t i ("C4", iv)).isSome) :
    ∃ dcols, c3c4_step intervals t = some dcols ∧
      (∀ iv ∈ intervals, ∀ i, i < t.y.length → ∀ a b : ℚ,
        rowGet t i ("C3", iv) = some a → rowGet t i ("C4", iv) = some b →
        ∃ l, dlookup dcols iv = some l ∧ l.getD i 0 = a - b) ∧
      (feature_concat t band dcols).power = t ∧
      (feature_concat t band dcols).band = band ∧
      (feature_concat t band dcols).diff = dcols := by
  have hf : ∀ i ∈ List.range t.y.length, ∀ iv ∈ intervals,
      ((rowGet t i ("C3", iv)).bind (fun a =>
        (rowGet t i ("C4", iv)).map (fun b => a - b))).isSome := by
    intro i hi iv hiv
    obtain ⟨h1, h2⟩ := hall i (List.mem_range.mp hi) iv hiv
    obtain ⟨x, hx⟩ := Option.isSome_iff_exists.mp h1
    obtain ⟨y2, hy2⟩ := Option.isSome_iff_exists.mp h2
    rw [hx, hy2]
    rfl
  obtain ⟨d, hd, _, hlk⟩ := buildTable_spec (List.range t.y.length) intervals _ hnd hf
  refine ⟨d, hd, ?_, rfl, rfl, rfl⟩
  intro iv hiv i hi a b ha hb
  have hne : List.range t.y.length ≠ [] := by
    intro h0
    have h1 : t.y.length = 0 := by simpa using congrArg List.length h0
    omega
  refine ⟨_, hlk iv hiv hne, ?_⟩
  have hilen : i < ((List.range t.y.length).map (fun i =>
      ((rowGet t i ("C3", iv)).bind (fun a =>
        (rowGet t i ("C4", iv)).map (fun b => a - b))).iget)).length := by
    simpa using hi
  rw [List.getD_eq_getElem _ 0 hilen]
  simp only [List.getElem_map, List.getElem_range]
  rw [ha, hb]
  rfl

/-- Concrete table for the C9 witness: one epoch, one interval, with
C3 power 5 and C4 power 2. -/
def wT9 : PRTable :=
  ⟨[0], (keyProduct [((4 : ℚ), (7 : ℚ))]).map
    (fun k => (k, if k.1 = "C3" then [5] else [2]))⟩

/-- Claim C9 witness: the difference column at a concrete table. -/
theorem claim_C9_witness :
    ([((4 : ℚ), (7 : ℚ))] : List (ℚ × ℚ)).Nodup ∧
    (∀ i < wT9.y.length, ∀ iv ∈ [((4 : ℚ), (7 : ℚ))],
      (rowGet wT9 i ("C3", iv)).isSome ∧ (rowGet wT9 i ("C4", iv)).isSome) ∧
    (∃ dcols, c3c4_step [((4 : ℚ), (7 : ℚ))] wT9 = some dcols ∧
      (∀ iv ∈ [((4 : ℚ), (7 : ℚ))], ∀ i, i < wT9.y.length → ∀ a b : ℚ,
        rowGet wT9 i ("C3", iv) = some a → rowGet wT9 i ("C4", iv) = some b →
        ∃ l, dlookup dcols iv = some l ∧ l.getD i 0 = a - b) ∧
      (feature_concat wT9 [] dcols).power = wT9 ∧
      (feature_concat wT9 [] dcols).band = [] ∧
      (feature_concat wT9 [] dcols).diff = dcols) :=
  ⟨by decide, by decide,
    claim_C9 wT9 [((4 : ℚ), (7 : ℚ))] [] (by decide) (by decide)⟩

/-- Claim C10: on any nonempty channel-complete epoch collection, the
band-ratio step succeeds exactly when the binning produced both the
(4, 7) and the (12, 30) interval (the hard-coded keys it looks up);
with any other binning the first row's lookup of a missing column key
fails (KeyError). The default binning [0.5, 4, 7, 12, 30] contains both
pairs, so the step succeeds only under it or a binning containing those
two consecutive boundary pairs. -/
theorem claim_C10 (pr : List ℚ → List ℚ → List ℚ) (binning : List ℚ)
    (epochs : List EpochRow) (t : PRTable)
    (hsort : binning.Chain' (· < ·)) (hne : epochs ≠ [])
    (hch : ∀ r ∈ epochs, ∀ ch ∈ eeg_chans, (chanData r ch).isSome)
    (hok : power_ratios pr binning epochs = some t) :
    (theta_beta_step t).isSome ↔
      (((4 : ℚ), (7 : ℚ)) ∈ getIntervals binning ∧
        ((12 : ℚ), (30 : ℚ)) ∈ getIntervals binning) := by
  have hnd := keyProduct_nodup _ (getIntervals_nodup binning hsort)
  obtain ⟨t2, hok2, hy2, hkeys2⟩ := power_ratios_spec pr binning epochs hnd hch
  have ht : t2 = t := by
    have h12 : some t2 = some t := hok2.symm.trans hok
    injection h12
  rw [ht] at hy2 hkeys2
  have hempty : epochs.isEmpty = false := by
    cases epochs with
    | nil => exact absurd rfl hne
    | cons a l => rfl
  rw [hempty] at hkeys2
  simp only [Bool.false_eq_true, if_false] at hkeys2
  have hn0 : 0 < t.y.length := by
    rw [hy2, List.length_map]
    cases epochs with
    | nil => exact absurd rfl hne
    | cons a l => simp
  constructor
  · intro hsome
    obtain ⟨d, hd⟩ := Option.isSome_iff_exists.mp hsome
    have hforall := buildTable_some_forall (List.range t.y.length) eeg_chans _ d hd
    have hf := hforall 0 (List.mem_range.mpr hn0) "C3" (by decide)
    have ha : (rowGet t 0 ("C3", (4, 7))).isSome := by
      cases h1 : rowGet t 0 ("C3", (4, 7)) with
      | none => rw [h1] at hf; simp at hf
      | some x => rfl
    have hb : (rowGet t 0 ("C3", (12, 30))).isSome := by
      obtain ⟨x, hx⟩ := Option.isSome_iff_exists.mp ha
      rw [hx] at hf
      cases h2 : rowGet t 0 ("C3", (12, 30)) with
      | none => rw [h2] at hf; simp at hf
      | some y2 => rfl
    rw [rowGet_isSome_iff, dlookup_isSome_iff_mem, hkeys2] at ha hb
    exact ⟨((mem_keyProduct_iff _ _ _).mp ha).2, ((mem_keyProduct_iff _ _ _).mp hb).2⟩
  · rintro ⟨hm1, hm2⟩
    have hf : ∀ j ∈ List.range t.y.length, ∀ c ∈ eeg_chans,
        ((rowGet t j (c, (4, 7))).bind (fun tv =>
          (rowGet t j (c, (12, 30))).map (fun bv => tv / bv))).isSome := by
      intro j _ c hc
      have ha : (rowGet t j (c, (4, 7))).isSome := by
        rw [rowGet_isSome_iff, dlookup_isSome_iff_mem, hkeys2]
        exact (mem_keyProduct_iff _ _ _).mpr ⟨hc, hm1⟩
      have hb : (rowGet t j (c, (12, 30))).isSome := by
        rw [rowGet_isSome_iff, dlookup_isSome_iff_mem, hkeys2]
        exact (mem_keyProduct_iff _ _ _).mpr ⟨hc, hm2⟩
      obtain ⟨x, hx⟩ := Option.isSome_iff_exists.mp ha
      obtain ⟨y2, hy2x⟩ := Option.isSome_iff_exists.mp hb
      rw [hx, hy2x]
      rfl
    obtain ⟨d, hd, _, _⟩ := buildTable_spec (List.range t.y.length) eeg_chans _
      (by decide) hf
    unfold theta_beta_step
    rw [hd]
    rfl

/-- An integer-boundary binning containing the two hard-coded pairs
(4, 7) and (12, 30), for the C10 witness (integer boundaries keep the
rational arithmetic kernel-reducible). -/
def wBinning : List ℚ := [1, 4, 7, 12, 30]

/-- A constant stand-in for the external power-ratio computation whose
outputs are kernel-reducible rationals. -/
def wPRone : List ℚ → List ℚ → List ℚ := fun _ _ => [1, 1, 1, 1]

/-- The table power_ratios builds from one epoch under wBinning with
wPRone. -/
def wT10 : PRTable :=
  ⟨[0], (keyProduct (getIntervals wBinning)).map (fun k => (k, [1]))⟩

/-- Claim C10 witness: under a binning containing the two hard-coded
boundary pairs the looked-up keys exist and the band-ratio step
succeeds; the equivalence is instantiated at a concrete pipeline run. -/
theorem claim_C10_witness :
    wBinning.Chain' (· < ·) ∧ ([wEpochA] : List EpochRow) ≠ [] ∧
    (∀ r ∈ [wEpochA], ∀ ch ∈ eeg_chans, (chanData r ch).isSome) ∧
    power_ratios wPRone wBinning [wEpochA] = some wT10 ∧
    ((theta_beta_step wT10).isSome ↔
      (((4 : ℚ), (7 : ℚ)) ∈ getIntervals wBinning ∧
        ((12 : ℚ), (30 : ℚ)) ∈ getIntervals wBinning)) :=
  ⟨by norm_num [wBinning, List.chain'_cons], (by intro h; cases h), by decide,
    by decide,
    claim_C10 wPRone wBinning [wEpochA] wT10
      (by norm_num [wBinning, List.chain'_cons]) (by intro h; cases h)
      (by decide) (by decide)⟩
